import Mathlib

/-!
# Verification of the gopdq box-filter kernel

Shallow embedding of `src/simd_vectorized.c` over exact rationals (C `float`
values are modelled as `ℚ`; C `int` loop-count arithmetic is modelled with `ℤ`
and `Int.toNat`, so a negative loop bound yields zero iterations, exactly as a
C `for (i = 0; i < n; i++)` loop).

Buffers are modelled as total functions `ℕ → ℚ`; a filter invocation is
modelled as the ordered list of `(index, value)` stores it performs, which is
then applied to the output buffer by `applyWrites` (later stores win, as in C).
-/

/-- The transient accumulator state of `box1DFloatC`: the three cursor indices
`li`, `ri`, `oi` and the running `sum` and `currentWindowSize` (a float in the
C source, hence `ℚ` here). -/
structure BoxState where
  li : ℕ
  ri : ℕ
  oi : ℕ
  sum : ℚ
  cws : ℚ
  deriving DecidableEq, Repr

/-- Phase 1 of `box1DFloatC` (initial accumulation, no output):
`sum += invec[ri]; currentWindowSize += 1; ri += stride`, repeated `n` times. -/
def phase1Run (invec : ℕ → ℚ) (stride : ℕ) : ℕ → BoxState → BoxState
  | 0, s => s
  | n + 1, s =>
      phase1Run invec stride n
        ⟨s.li, s.ri + stride, s.oi, s.sum + invec s.ri, s.cws + 1⟩

/-- Phase 2 of `box1DFloatC` (initial writes with a growing window):
`sum += invec[ri]; currentWindowSize++; outVec[oi] = sum / currentWindowSize;
ri += stride; oi += stride`.  Each emitted record pairs the store
`(oi, value)` with the divisor used for it. -/
def phase2Run (invec : ℕ → ℚ) (stride : ℕ) :
    ℕ → BoxState → BoxState × List ((ℕ × ℚ) × ℚ)
  | 0, s => (s, [])
  | n + 1, s =>
      let sum := s.sum + invec s.ri
      let cws := s.cws + 1
      let r := phase2Run invec stride n ⟨s.li, s.ri + stride, s.oi + stride, sum, cws⟩
      (r.1, ((s.oi, sum / cws), cws) :: r.2)

/-- The single-step (remainder) loop of phase 3 of `box1DFloatC`:
`sum += invec[ri]; sum -= invec[li]; outVec[oi] = sum / currentWindowSize;
li += stride; ri += stride; oi += stride`. -/
def phase3ScalarRun (invec : ℕ → ℚ) (stride : ℕ) :
    ℕ → BoxState → BoxState × List ((ℕ × ℚ) × ℚ)
  | 0, s => (s, [])
  | n + 1, s =>
      let sum := s.sum + invec s.ri - invec s.li
      let r := phase3ScalarRun invec stride n
        ⟨s.li + stride, s.ri + stride, s.oi + stride, sum, s.cws⟩
      (r.1, ((s.oi, sum / s.cws), s.cws) :: r.2)

/-- The serial recurrence of the unrolled phase-3 block:
`bufAcc k` is the value of `buf[k-1]` in the C source (`bufAcc 0` is the
incoming `sum`), i.e. `buf[k] = buf[k-1] + invec[ri + stride*k] -
invec[li + stride*k]`. -/
def bufAcc (invec : ℕ → ℚ) (stride : ℕ) (s : BoxState) : ℕ → ℚ
  | 0 => s.sum
  | k + 1 => bufAcc invec stride s k + invec (s.ri + stride * k) - invec (s.li + stride * k)

/-- One iteration of the unrolled block-of-8 loop of phase 3: the eight stores
`outVec[oi + stride*k] = buf[k] * denom`, then
`li += stride*8; ri += stride*8; oi += stride*8; sum = buf[7]`. -/
def phase3BlockStep (invec : ℕ → ℚ) (stride : ℕ) (d : ℚ) (s : BoxState) :
    BoxState × List (ℕ × ℚ) :=
  (⟨s.li + stride * 8, s.ri + stride * 8, s.oi + stride * 8, bufAcc invec stride s 8, s.cws⟩,
   (List.range 8).map fun k => (s.oi + stride * k, bufAcc invec stride s (k + 1) * d))

/-- The unrolled block-of-8 loop of phase 3, run for `n` blocks. -/
def phase3BlockRun (invec : ℕ → ℚ) (stride : ℕ) (d : ℚ) :
    ℕ → BoxState → BoxState × List (ℕ × ℚ)
  | 0, s => (s, [])
  | n + 1, s =>
      let r := phase3BlockStep invec stride d s
      let r2 := phase3BlockRun invec stride d n r.1
      (r2.1, r.2 ++ r2.2)

/-- Phase 4 of `box1DFloatC` (final writes with a shrinking window):
`sum -= invec[li]; currentWindowSize--; outVec[oi] = sum / currentWindowSize;
li += stride; oi += stride`. -/
def phase4Run (invec : ℕ → ℚ) (stride : ℕ) :
    ℕ → BoxState → BoxState × List ((ℕ × ℚ) × ℚ)
  | 0, s => (s, [])
  | n + 1, s =>
      let sum := s.sum - invec s.li
      let cws := s.cws - 1
      let r := phase4Run invec stride n ⟨s.li + stride, s.ri, s.oi + stride, sum, cws⟩
      (r.1, ((s.oi, sum / cws), cws) :: r.2)

/-- The number of phase-3 steps `box1DFloatC` actually executes: eight per
iteration of the unrolled loop (`for (; i < phase3Nreps-8; i += 8)`) plus the
remainder iterations of the scalar loop (`for (; i < phase3Nreps; i++)`). -/
def box1DPhase3Steps (vectorLength fullWindowSize : ℕ) : ℕ :=
  let phase3Nreps : ℤ := (vectorLength : ℤ) - (fullWindowSize : ℤ)
  let nblocks := ((phase3Nreps - 8).toNat + 7) / 8
  8 * nblocks + (phase3Nreps.toNat - 8 * nblocks)

/-- A full run of `box1DFloatC`: the ordered list of stores it performs into
`outVec`, paired with the ordered list of divisors of every division it
performs (the phase-2 divisions, the reciprocal computation
`denom = 1 / currentWindowSize` before the unrolled loop, the scalar phase-3
divisions, and the phase-4 divisions). -/
def box1DRun (invec : ℕ → ℚ) (vectorLength stride fullWindowSize : ℕ) :
    List (ℕ × ℚ) × List ℚ :=
  let halfWindowSize := (fullWindowSize + 2) / 2
  let phase1Nreps := halfWindowSize - 1
  let phase2Nreps := ((fullWindowSize : ℤ) - (halfWindowSize : ℤ) + 1).toNat
  let phase3Nreps : ℤ := (vectorLength : ℤ) - (fullWindowSize : ℤ)
  let phase4Nreps := halfWindowSize - 1
  let s1 := phase1Run invec stride phase1Nreps ⟨0, 0, 0, 0, 0⟩
  let r2 := phase2Run invec stride phase2Nreps s1
  let denom := 1 / r2.1.cws
  let nblocks := ((phase3Nreps - 8).toNat + 7) / 8
  let r3b := phase3BlockRun invec stride denom nblocks r2.1
  let scalarReps := phase3Nreps.toNat - 8 * nblocks
  let r3 := phase3ScalarRun invec stride scalarReps r3b.1
  let r4 := phase4Run invec stride phase4Nreps r3.1
  (r2.2.map Prod.fst ++ r3b.2 ++ r3.2.map Prod.fst ++ r4.2.map Prod.fst,
   r2.2.map Prod.snd ++ [r2.1.cws] ++ r3.2.map Prod.snd ++ r4.2.map Prod.snd)

/-- The ordered list of stores performed by one `box1DFloatC` call. -/
def box1DWrites (invec : ℕ → ℚ) (vectorLength stride fullWindowSize : ℕ) :
    List (ℕ × ℚ) :=
  (box1DRun invec vectorLength stride fullWindowSize).1

/-- The ordered list of divisors of every division performed by one
`box1DFloatC` call. -/
def box1DDivisors (invec : ℕ → ℚ) (vectorLength stride fullWindowSize : ℕ) :
    List ℚ :=
  (box1DRun invec vectorLength stride fullWindowSize).2

/-- Apply an ordered list of stores to a buffer (later stores win). -/
def applyWrites (out : ℕ → ℚ) (ws : List (ℕ × ℚ)) : ℕ → ℚ :=
  ws.foldl (fun o w => Function.update o w.1 w.2) out

/-- `box1DFloatC invec outVec length stride windowSize` as a buffer
transformer: the contents of `outVec` after the call. -/
def box1DFloatC (invec outVec : ℕ → ℚ) (vectorLength stride fullWindowSize : ℕ) :
    ℕ → ℚ :=
  applyWrites outVec (box1DWrites invec vectorLength stride fullWindowSize)

/-- Variant of `box1DRun` that takes the single-step fallback path for the
whole of phase 3 (the unrolled block-of-8 loop is never entered). -/
def box1DRunNoUnroll (invec : ℕ → ℚ) (vectorLength stride fullWindowSize : ℕ) :
    List (ℕ × ℚ) × List ℚ :=
  let halfWindowSize := (fullWindowSize + 2) / 2
  let phase1Nreps := halfWindowSize - 1
  let phase2Nreps := ((fullWindowSize : ℤ) - (halfWindowSize : ℤ) + 1).toNat
  let phase3Nreps : ℤ := (vectorLength : ℤ) - (fullWindowSize : ℤ)
  let phase4Nreps := halfWindowSize - 1
  let s1 := phase1Run invec stride phase1Nreps ⟨0, 0, 0, 0, 0⟩
  let r2 := phase2Run invec stride phase2Nreps s1
  let r3 := phase3ScalarRun invec stride phase3Nreps.toNat r2.1
  let r4 := phase4Run invec stride phase4Nreps r3.1
  (r2.2.map Prod.fst ++ r3.2.map Prod.fst ++ r4.2.map Prod.fst,
   r2.2.map Prod.snd ++ [r2.1.cws] ++ r3.2.map Prod.snd ++ r4.2.map Prod.snd)

/-- Stores of the single-step-only variant of `box1DFloatC`. -/
def box1DWritesNoUnroll (invec : ℕ → ℚ) (vectorLength stride fullWindowSize : ℕ) :
    List (ℕ × ℚ) :=
  (box1DRunNoUnroll invec vectorLength stride fullWindowSize).1

/-- Output buffer of the single-step-only variant of `box1DFloatC`. -/
def box1DFloatCNoUnroll (invec outVec : ℕ → ℚ)
    (vectorLength stride fullWindowSize : ℕ) : ℕ → ℚ :=
  applyWrites outVec (box1DWritesNoUnroll invec vectorLength stride fullWindowSize)

/-- A `box1DFloatC` call through offset pointers, as in
`box1DFloatC(&input[base], &output[base], len, stride, w)`: every read and
store is displaced by `base`. -/
def box1DOffset (input out : ℕ → ℚ) (base vectorLength stride fullWindowSize : ℕ) :
    ℕ → ℚ :=
  applyWrites out
    ((box1DWrites (fun k => input (base + k)) vectorLength stride fullWindowSize).map
      fun w => (base + w.1, w.2))

/-- `boxAlongRowsFloatC`: one `box1DFloatC` call per row, at offset
`i * numCols`, length `numCols`, stride `1`. -/
def boxAlongRowsFloatC (input output : ℕ → ℚ) (numRows numCols windowSize : ℕ) :
    ℕ → ℚ :=
  (List.range numRows).foldl
    (fun out i => box1DOffset input out (i * numCols) numCols 1 windowSize) output

/-- `boxAlongColsFloatC`: one `box1DFloatC` call per column, at offset `j`,
length `numRows`, stride `numCols`. -/
def boxAlongColsFloatC (input output : ℕ → ℚ) (numRows numCols windowSize : ℕ) :
    ℕ → ℚ :=
  (List.range numCols).foldl
    (fun out j => box1DOffset input out j numRows numCols windowSize) output

/-- One repetition of the `jaroszFilterFloat` loop body: a row pass from
buffer 1 into buffer 2, then a column pass from buffer 2 into buffer 1. -/
def jaroszStep (numRows numCols windowSizeAlongRows windowSizeAlongCols : ℕ)
    (p : (ℕ → ℚ) × (ℕ → ℚ)) : (ℕ → ℚ) × (ℕ → ℚ) :=
  let b2 := boxAlongRowsFloatC p.1 p.2 numRows numCols windowSizeAlongRows
  let b1 := boxAlongColsFloatC b2 p.1 numRows numCols windowSizeAlongCols
  (b1, b2)

/-- `jaroszFilterFloat`: `nreps` repetitions of the loop body, returning the
final contents of (buffer 1, buffer 2). -/
def jaroszFilterFloat (buffer1 buffer2 : ℕ → ℚ)
    (numRows numCols windowSizeAlongRows windowSizeAlongCols nreps : ℕ) :
    (ℕ → ℚ) × (ℕ → ℚ) :=
  (List.range nreps).foldl
    (fun p _ => jaroszStep numRows numCols windowSizeAlongRows windowSizeAlongCols p)
    (buffer1, buffer2)

/-! ## Specification-side definitions -/

/-- Left endpoint (inclusive) of the window of input samples actually averaged
into output position `i`: the window of `fullWindowSize` consecutive samples
ending at `i + fullWindowSize/2`, clipped below at `0`. -/
def winLo (fullWindowSize i : ℕ) : ℕ :=
  i + fullWindowSize / 2 + 1 - fullWindowSize

/-- Right endpoint (exclusive) of the window averaged into output position
`i`, clipped above at `vectorLength`. -/
def winHi (vectorLength fullWindowSize i : ℕ) : ℕ :=
  min (i + fullWindowSize / 2 + 1) vectorLength

/-- The shrinking-window mean the filter computes at output position `i`:
the mean of the in-range samples of the window `[i + w/2 - (w-1), i + w/2]`,
with the true in-range count as divisor. -/
def boxWindowMean (invec : ℕ → ℚ) (vectorLength stride fullWindowSize i : ℕ) : ℚ :=
  (∑ j in Finset.Ico (winLo fullWindowSize i) (winHi vectorLength fullWindowSize i),
      invec (j * stride)) /
    ((winHi vectorLength fullWindowSize i - winLo fullWindowSize i : ℕ) : ℚ)

/-- Modelled from the spec's sentence for claim C1: the mean over the window
`[i - windowSize/2, i + windowSize/2]` intersected with `[0, length)`, with
the in-range count as divisor. -/
def claimWindowMean (invec : ℕ → ℚ) (vectorLength stride fullWindowSize i : ℕ) : ℚ :=
  (∑ j in Finset.Ico (i - fullWindowSize / 2)
      (min (i + fullWindowSize / 2 + 1) vectorLength), invec (j * stride)) /
    ((min (i + fullWindowSize / 2 + 1) vectorLength - (i - fullWindowSize / 2) : ℕ) : ℚ)

/-- The all-zero buffer. -/
def zeroBuf : ℕ → ℚ := fun _ => 0

/-- The all-one buffer. -/
def oneBuf : ℕ → ℚ := fun _ => 1

/-- The 5-element test input `[0, 0, 0, 10, 0]` (zero beyond index 4). -/
def input5 : ℕ → ℚ := fun i => if i = 3 then 10 else 0

/-- The 2-element test input `[1, 0]` (zero beyond index 0). -/
def input10 : ℕ → ℚ := fun i => if i = 0 then 1 else 0

/-! ## Phase characterizations -/

lemma phase1Run_eq (invec : ℕ → ℚ) (stride : ℕ) (n : ℕ) (s : BoxState) :
    phase1Run invec stride n s =
      ⟨s.li, s.ri + n * stride, s.oi,
        s.sum + ∑ j in Finset.range n, invec (s.ri + j * stride), s.cws + n⟩ := by
  induction' n with n ih generalizing s
  · simp [phase1Run]
  · have harg : ∀ j : ℕ, s.ri + stride + j * stride = s.ri + (j + 1) * stride :=
      fun j => by ring
    have hsum :
        s.sum + invec s.ri + ∑ j in Finset.range n, invec (s.ri + stride + j * stride)
          = s.sum + ∑ j in Finset.range (n + 1), invec (s.ri + j * stride) := by
      rw [Finset.sum_range_succ']
      simp only [harg, zero_mul, add_zero]
      ring
    simp only [phase1Run]
    rw [ih]
    simp only [BoxState.mk.injEq]
    refine ⟨trivial, by ring, trivial, hsum, by push_cast; ring⟩

lemma phase2Run_eq (invec : ℕ → ℚ) (stride : ℕ) (n : ℕ) (s : BoxState) :
    phase2Run invec stride n s =
      (⟨s.li, s.ri + n * stride, s.oi + n * stride,
         s.sum + ∑ j in Finset.range n, invec (s.ri + j * stride), s.cws + n⟩,
       (List.range n).map fun t =>
         ((s.oi + t * stride,
            (s.sum + ∑ j in Finset.range (t + 1), invec (s.ri + j * stride)) /
              (s.cws + t + 1)),
          s.cws + t + 1)) := by
  induction' n with n ih generalizing s
  · simp [phase2Run]
  · have harg : ∀ j : ℕ, s.ri + stride + j * stride = s.ri + (j + 1) * stride :=
      fun j => by ring
    have hsum : ∀ t : ℕ,
        s.sum + invec s.ri + ∑ j in Finset.range t, invec (s.ri + stride + j * stride)
          = s.sum + ∑ j in Finset.range (t + 1), invec (s.ri + j * stride) := by
      intro t
      rw [Finset.sum_range_succ']
      simp only [harg, zero_mul, add_zero]
      ring
    simp only [phase2Run]
    rw [ih]
    refine Prod.ext ?_ ?_
    · simp only [BoxState.mk.injEq]
      refine ⟨trivial, by ring, by ring, hsum n, by push_cast; ring⟩
    · rw [List.range_succ_eq_map, List.map_cons, List.map_map]
      refine congrArg₂ List.cons ?_ ?_
      · simp [Finset.sum_range_one]
      · refine List.map_congr_left ?_
        intro t _
        simp only [Function.comp_apply, Prod.mk.injEq, Nat.succ_eq_add_one]
        refine ⟨⟨by ring, ?_⟩, by push_cast; ring⟩
        rw [← hsum (t + 1)]
        have : s.cws + 1 + ↑t + 1 = s.cws + ↑(t + 1) + 1 := by push_cast; ring
        rw [this]

lemma phase3ScalarRun_eq (invec : ℕ → ℚ) (stride : ℕ) (n : ℕ) (s : BoxState) :
    phase3ScalarRun invec stride n s =
      (⟨s.li + n * stride, s.ri + n * stride, s.oi + n * stride,
         s.sum + ∑ j in Finset.range n,
           (invec (s.ri + j * stride) - invec (s.li + j * stride)), s.cws⟩,
       (List.range n).map fun t =>
         ((s.oi + t * stride,
            (s.sum + ∑ j in Finset.range (t + 1),
              (invec (s.ri + j * stride) - invec (s.li + j * stride))) / s.cws),
          s.cws)) := by
  induction' n with n ih generalizing s
  · simp [phase3ScalarRun]
  · have harg1 : ∀ j : ℕ, s.ri + stride + j * stride = s.ri + (j + 1) * stride :=
      fun j => by ring
    have harg2 : ∀ j : ℕ, s.li + stride + j * stride = s.li + (j + 1) * stride :=
      fun j => by ring
    have hsum : ∀ t : ℕ,
        s.sum + invec s.ri - invec s.li + ∑ j in Finset.range t,
            (invec (s.ri + stride + j * stride) - invec (s.li + stride + j * stride))
          = s.sum + ∑ j in Finset.range (t + 1),
              (invec (s.ri + j * stride) - invec (s.li + j * stride)) := by
      intro t
      rw [Finset.sum_range_succ']
      simp only [harg1, harg2, zero_mul, add_zero]
      ring
    simp only [phase3ScalarRun]
    rw [ih]
    refine Prod.ext ?_ ?_
    · simp only [BoxState.mk.injEq]
      exact ⟨by ring, by ring, by ring, hsum n, trivial⟩
    · rw [List.range_succ_eq_map, List.map_cons, List.map_map]
      refine congrArg₂ List.cons ?_ ?_
      · simp [Finset.sum_range_one, add_sub_assoc]
      · refine List.map_congr_left ?_
        intro t _
        simp only [Function.comp_apply, Prod.mk.injEq, Nat.succ_eq_add_one]
        exact ⟨⟨by ring, by rw [← hsum (t + 1)]⟩, trivial⟩

lemma phase4Run_eq (invec : ℕ → ℚ) (stride : ℕ) (n : ℕ) (s : BoxState) :
    phase4Run invec stride n s =
      (⟨s.li + n * stride, s.ri, s.oi + n * stride,
         s.sum - ∑ j in Finset.range n, invec (s.li + j * stride), s.cws - n⟩,
       (List.range n).map fun t =>
         ((s.oi + t * stride,
            (s.sum - ∑ j in Finset.range (t + 1), invec (s.li + j * stride)) /
              (s.cws - (t + 1))),
          s.cws - (t + 1))) := by
  induction' n with n ih generalizing s
  · simp [phase4Run]
  · have harg : ∀ j : ℕ, s.li + stride + j * stride = s.li + (j + 1) * stride :=
      fun j => by ring
    have hsum : ∀ t : ℕ,
        s.sum - invec s.li - ∑ j in Finset.range t, invec (s.li + stride + j * stride)
          = s.sum - ∑ j in Finset.range (t + 1), invec (s.li + j * stride) := by
      intro t
      rw [Finset.sum_range_succ']
      simp only [harg, zero_mul, add_zero]
      ring
    simp only [phase4Run]
    rw [ih]
    refine Prod.ext ?_ ?_
    · simp only [BoxState.mk.injEq]
      exact ⟨by ring, trivial, by ring, hsum n, by push_cast; ring⟩
    · rw [List.range_succ_eq_map, List.map_cons, List.map_map]
      refine congrArg₂ List.cons ?_ ?_
      · simp [Finset.sum_range_one]
      · refine List.map_congr_left ?_
        intro t _
        simp only [Function.comp_apply, Prod.mk.injEq, Nat.succ_eq_add_one]
        have hc : s.cws - 1 - (↑t + 1) = s.cws - (↑(t + 1) + 1) := by push_cast; ring
        exact ⟨⟨by ring, by rw [← hsum (t + 1), hc]⟩, hc⟩

lemma bufAcc_eq (invec : ℕ → ℚ) (stride : ℕ) (s : BoxState) (k : ℕ) :
    bufAcc invec stride s k =
      s.sum + ∑ j in Finset.range k,
        (invec (s.ri + j * stride) - invec (s.li + j * stride)) := by
  induction' k with k ih
  · simp [bufAcc]
  · rw [bufAcc, ih, Finset.sum_range_succ]
    have h1 : stride * k = k * stride := by ring
    rw [h1]
    ring

/-! ## The unrolled block-of-8 path agrees with the single-step path -/

lemma phase3ScalarRun_add (invec : ℕ → ℚ) (stride : ℕ) (m n : ℕ) (s : BoxState) :
    phase3ScalarRun invec stride (m + n) s =
      ((phase3ScalarRun invec stride n (phase3ScalarRun invec stride m s).1).1,
       (phase3ScalarRun invec stride m s).2 ++
         (phase3ScalarRun invec stride n (phase3ScalarRun invec stride m s).1).2) := by
  induction' m with m ih generalizing s
  · simp [phase3ScalarRun]
  · have h : m + 1 + n = (m + n) + 1 := by ring
    rw [h]
    simp only [phase3ScalarRun]
    rw [ih]
    simp

lemma phase3BlockStep_eq_scalar (invec : ℕ → ℚ) (stride : ℕ) (s : BoxState) :
    phase3BlockStep invec stride (1 / s.cws) s =
      ((phase3ScalarRun invec stride 8 s).1,
       (phase3ScalarRun invec stride 8 s).2.map Prod.fst) := by
  rw [phase3ScalarRun_eq]
  unfold phase3BlockStep
  refine Prod.ext ?_ ?_
  · simp only [BoxState.mk.injEq]
    refine ⟨by ring, by ring, by ring, ?_, trivial⟩
    rw [bufAcc_eq]
  · simp only [List.map_map]
    refine List.map_congr_left ?_
    intro k _
    simp only [Function.comp_apply]
    refine congrArg₂ Prod.mk (by ring) ?_
    rw [bufAcc_eq, mul_one_div]

lemma phase3BlockRun_eq_scalar (invec : ℕ → ℚ) (stride : ℕ) :
    ∀ (n : ℕ) (s : BoxState) (d : ℚ), d = 1 / s.cws →
      phase3BlockRun invec stride d n s =
        ((phase3ScalarRun invec stride (8 * n) s).1,
         (phase3ScalarRun invec stride (8 * n) s).2.map Prod.fst) := by
  intro n
  induction' n with n ih
  · intro s d hd
    simp [phase3BlockRun, phase3ScalarRun]
  · intro s d hd
    subst hd
    have hc : (phase3ScalarRun invec stride 8 s).1.cws = s.cws := by
      rw [phase3ScalarRun_eq]
    simp only [phase3BlockRun]
    rw [phase3BlockStep_eq_scalar]
    rw [ih ((phase3ScalarRun invec stride 8 s).1) (1 / s.cws) (by rw [hc])]
    have h8 : 8 * (n + 1) = 8 + 8 * n := by ring
    rw [h8, phase3ScalarRun_add]
    simp [List.map_append]

lemma phase3_full (invec : ℕ → ℚ) (stride : ℕ) (s : BoxState) (N : ℤ) :
    (phase3ScalarRun invec stride
        (N.toNat - 8 * (((N - 8).toNat + 7) / 8))
        (phase3BlockRun invec stride (1 / s.cws) (((N - 8).toNat + 7) / 8) s).1).1
        = (phase3ScalarRun invec stride N.toNat s).1 ∧
      (phase3BlockRun invec stride (1 / s.cws) (((N - 8).toNat + 7) / 8) s).2 ++
        (phase3ScalarRun invec stride
          (N.toNat - 8 * (((N - 8).toNat + 7) / 8))
          (phase3BlockRun invec stride (1 / s.cws) (((N - 8).toNat + 7) / 8) s).1).2.map
            Prod.fst
        = (phase3ScalarRun invec stride N.toNat s).2.map Prod.fst := by
  rw [phase3BlockRun_eq_scalar invec stride (((N - 8).toNat + 7) / 8) s (1 / s.cws) rfl]
  have hN : 8 * (((N - 8).toNat + 7) / 8) +
      (N.toNat - 8 * (((N - 8).toNat + 7) / 8)) = N.toNat := by omega
  have hsplit := phase3ScalarRun_add invec stride (8 * (((N - 8).toNat + 7) / 8))
    (N.toNat - 8 * (((N - 8).toNat + 7) / 8)) s
  rw [hN] at hsplit
  rw [hsplit]
  simp [List.map_append]

lemma box1DWrites_eq_noUnroll (invec : ℕ → ℚ) (len stride f : ℕ) :
    box1DWrites invec len stride f = box1DWritesNoUnroll invec len stride f := by
  have h := phase3_full invec stride
    (phase2Run invec stride (((f : ℤ) - (((f + 2) / 2 : ℕ) : ℤ) + 1).toNat)
      (phase1Run invec stride ((f + 2) / 2 - 1) ⟨0, 0, 0, 0, 0⟩)).1
    ((len : ℤ) - (f : ℤ))
  simp only [box1DWrites, box1DWritesNoUnroll, box1DRun, box1DRunNoUnroll]
  rw [h.1, ← h.2]
  simp [List.append_assoc]

/-! ## The window-mean characterization -/

lemma telescope_box (A : ℕ → ℚ) (f : ℕ) (hf : 1 ≤ f) (k : ℕ) :
    ∑ j in Finset.range f, A j + ∑ j in Finset.range k, (A (f + j) - A j)
      = ∑ j in Finset.Ico k (f + k), A j := by
  induction' k with k ih
  · simp [Nat.Ico_zero_eq_range]
  · have hk : f + (k + 1) = f + k + 1 := by ring
    rw [hk, Finset.sum_range_succ, ← add_assoc, ih]
    have h1 : ∑ j in Finset.Ico (k + 1) (f + k + 1), A j
        = ∑ j in Finset.Ico (k + 1) (f + k), A j + A (f + k) :=
      Finset.sum_Ico_succ_top (by omega) A
    have h2 : ∑ j in Finset.Ico k (f + k), A j
        = A k + ∑ j in Finset.Ico (k + 1) (f + k), A j :=
      Finset.sum_eq_sum_Ico_succ_bot (by omega) A
    rw [h1, h2]
    ring

lemma Ico_sum_drop (A : ℕ → ℚ) (a k b : ℕ) (h : a + k ≤ b) :
    ∑ j in Finset.Ico a b, A j - ∑ j in Finset.range k, A (a + j)
      = ∑ j in Finset.Ico (a + k) b, A j := by
  have h1 : ∑ j in Finset.Ico a (a + k), A j + ∑ j in Finset.Ico (a + k) b, A j
      = ∑ j in Finset.Ico a b, A j :=
    Finset.sum_Ico_consecutive A (Nat.le_add_right a k) h
  have h2 : ∑ j in Finset.Ico a (a + k), A j = ∑ j in Finset.range k, A (a + j) := by
    rw [Finset.sum_Ico_eq_sum_range]
    simp
  rw [← h1, h2]
  ring

lemma range_map_add {α : Type} (a b : ℕ) (g : ℕ → α) :
    (List.range (a + b)).map g
      = (List.range a).map g ++ (List.range b).map fun t => g (a + t) := by
  rw [List.range_add, List.map_append, List.map_map]
  rfl

lemma seg2_eq (invec : ℕ → ℚ) (len stride f : ℕ) (hf : 1 ≤ f) (hfl : f ≤ len)
    (t : ℕ) (ht : t < f - f / 2) :
    (∑ j in Finset.range (f / 2), invec (j * stride) +
        ∑ j in Finset.range (t + 1), invec (f / 2 * stride + j * stride)) /
      (((f / 2 : ℕ) : ℚ) + t + 1)
      = boxWindowMean invec len stride f t := by
  have hlo : winLo f t = 0 := by unfold winLo; omega
  have hhi : winHi len f t = f / 2 + (t + 1) := by unfold winHi; omega
  unfold boxWindowMean
  rw [hlo, hhi]
  have hsum : ∑ j in Finset.Ico 0 (f / 2 + (t + 1)), invec (j * stride)
      = ∑ j in Finset.range (f / 2), invec (j * stride) +
        ∑ j in Finset.range (t + 1), invec (f / 2 * stride + j * stride) := by
    rw [Nat.Ico_zero_eq_range, Finset.sum_range_add]
    simp only [add_mul]
  rw [hsum]
  congr 1
  rw [Nat.sub_zero]
  push_cast
  ring

lemma seg3_eq (invec : ℕ → ℚ) (len stride f : ℕ) (hf : 1 ≤ f) (hfl : f ≤ len)
    (u : ℕ) (hu : u < len - f) :
    (∑ j in Finset.range f, invec (j * stride) +
        ∑ j in Finset.range (u + 1),
          (invec (f * stride + j * stride) - invec (j * stride))) / (f : ℚ)
      = boxWindowMean invec len stride f (f - f / 2 + u) := by
  have hlo : winLo f (f - f / 2 + u) = u + 1 := by unfold winLo; omega
  have hhi : winHi len f (f - f / 2 + u) = f + (u + 1) := by unfold winHi; omega
  unfold boxWindowMean
  rw [hlo, hhi]
  have hsum : ∑ j in Finset.Ico (u + 1) (f + (u + 1)), invec (j * stride)
      = ∑ j in Finset.range f, invec (j * stride) +
        ∑ j in Finset.range (u + 1),
          (invec (f * stride + j * stride) - invec (j * stride)) := by
    rw [← telescope_box (fun j => invec (j * stride)) f hf (u + 1)]
    simp only [add_mul]
  rw [hsum]
  congr 1
  have hcount : f + (u + 1) - (u + 1) = f := by omega
  rw [hcount]

lemma seg4_eq (invec : ℕ → ℚ) (len stride f : ℕ) (hf : 1 ≤ f) (hfl : f ≤ len)
    (v : ℕ) (hv : v < f / 2) :
    (∑ j in Finset.Ico (len - f) len, invec (j * stride) -
        ∑ j in Finset.range (v + 1), invec ((len - f) * stride + j * stride)) /
      ((f : ℚ) - (v + 1))
      = boxWindowMean invec len stride f (f - f / 2 + ((len - f) + v)) := by
  have hv1 : v + 1 ≤ f := by omega
  have hlo : winLo f (f - f / 2 + ((len - f) + v)) = (len - f) + (v + 1) := by
    unfold winLo; omega
  have hhi : winHi len f (f - f / 2 + ((len - f) + v)) = len := by
    unfold winHi; omega
  unfold boxWindowMean
  rw [hlo, hhi]
  have hsum : ∑ j in Finset.Ico ((len - f) + (v + 1)) len, invec (j * stride)
      = ∑ j in Finset.Ico (len - f) len, invec (j * stride) -
        ∑ j in Finset.range (v + 1), invec ((len - f) * stride + j * stride) := by
    rw [← Ico_sum_drop (fun j => invec (j * stride)) (len - f) (v + 1) len (by omega)]
    simp only [add_mul]
  rw [hsum]
  congr 1
  have hcount : len - ((len - f) + (v + 1)) = f - (v + 1) := by omega
  rw [hcount]
  push_cast [hv1]
  ring

set_option maxHeartbeats 1000000 in
theorem box1DWrites_master (invec : ℕ → ℚ) (len stride f : ℕ)
    (hf : 1 ≤ f) (hfl : f ≤ len) :
    box1DWrites invec len stride f =
      (List.range len).map fun i => (i * stride, boxWindowMean invec len stride f i) := by
  rw [box1DWrites_eq_noUnroll]
  simp only [box1DWritesNoUnroll, box1DRunNoUnroll]
  have hhalf : (f + 2) / 2 - 1 = f / 2 := by omega
  have hp2 : ((f : ℤ) - (((f + 2) / 2 : ℕ) : ℤ) + 1).toNat = f - f / 2 := by omega
  have hp3 : ((len : ℤ) - (f : ℤ)).toNat = len - f := by omega
  rw [hhalf, hp2, hp3, phase1Run_eq]
  simp only [zero_add]
  rw [phase2Run_eq]
  dsimp only
  simp only [zero_add]
  have hri12 : f / 2 * stride + (f - f / 2) * stride = f * stride := by
    rw [← add_mul]
    congr 1
    omega
  have hcws : ((f / 2 : ℕ) : ℚ) + ((f - f / 2 : ℕ) : ℚ) = (f : ℚ) := by
    rw [← Nat.cast_add]
    congr 1
    omega
  have hsum12 : ∑ x in Finset.range (f / 2), invec (x * stride) +
      ∑ j in Finset.range (f - f / 2), invec (f / 2 * stride + j * stride)
      = ∑ j in Finset.range f, invec (j * stride) := by
    have h := Finset.sum_range_add (fun j => invec (j * stride)) (f / 2) (f - f / 2)
    simp only [add_mul] at h
    rw [← h]
    have h2 : f / 2 + (f - f / 2) = f := by omega
    rw [h2]
  simp only [hri12, hcws, hsum12]
  rw [phase3ScalarRun_eq]
  dsimp only
  simp only [zero_add]
  have hs3sum : ∑ j in Finset.range f, invec (j * stride) +
      ∑ j in Finset.range (len - f),
        (invec (f * stride + j * stride) - invec (j * stride))
      = ∑ j in Finset.Ico (len - f) len, invec (j * stride) := by
    have h := telescope_box (fun j => invec (j * stride)) f hf (len - f)
    simp only [add_mul] at h
    have h2 : f + (len - f) = len := by omega
    rw [h2] at h
    exact h
  simp only [hs3sum]
  rw [phase4Run_eq]
  dsimp only
  simp only [List.map_map]
  have hG : List.range len = List.range ((f - f / 2) + ((len - f) + f / 2)) :=
    congrArg List.range (by omega)
  rw [hG, range_map_add, range_map_add]
  simp only [List.append_assoc]
  refine congrArg₂ (· ++ ·) ?_ (congrArg₂ (· ++ ·) ?_ ?_)
  · refine List.map_congr_left ?_
    intro t ht
    simp only [List.mem_range] at ht
    simp only [Function.comp_apply]
    refine congrArg₂ Prod.mk rfl ?_
    exact seg2_eq invec len stride f hf hfl t ht
  · refine List.map_congr_left ?_
    intro t ht
    simp only [List.mem_range] at ht
    simp only [Function.comp_apply]
    refine congrArg₂ Prod.mk (by ring) ?_
    exact seg3_eq invec len stride f hf hfl t ht
  · refine List.map_congr_left ?_
    intro t ht
    simp only [List.mem_range] at ht
    simp only [Function.comp_apply]
    refine congrArg₂ Prod.mk (by ring) ?_
    exact seg4_eq invec len stride f hf hfl t ht

/-! ## Store-list application lemmas -/

lemma applyWrites_cons (out : ℕ → ℚ) (w : ℕ × ℚ) (ws : List (ℕ × ℚ)) :
    applyWrites out (w :: ws) = applyWrites (Function.update out w.1 w.2) ws := rfl

lemma applyWrites_append (out : ℕ → ℚ) (xs ys : List (ℕ × ℚ)) :
    applyWrites out (xs ++ ys) = applyWrites (applyWrites out xs) ys := by
  simp [applyWrites, List.foldl_append]

lemma applyWrites_not_mem (out : ℕ → ℚ) (ws : List (ℕ × ℚ)) (p : ℕ)
    (h : p ∉ ws.map Prod.fst) : applyWrites out ws p = out p := by
  induction' ws with w ws ih generalizing out
  · rfl
  · simp only [List.map_cons, List.mem_cons] at h
    push_neg at h
    rw [applyWrites_cons, ih _ h.2, Function.update_noteq h.1]

lemma applyWrites_covered (out out' : ℕ → ℚ) (ws : List (ℕ × ℚ)) (p : ℕ)
    (h : p ∈ ws.map Prod.fst) : applyWrites out ws p = applyWrites out' ws p := by
  induction' ws with w ws ih generalizing out out'
  · simp at h
  · rw [applyWrites_cons, applyWrites_cons]
    by_cases hp : p ∈ ws.map Prod.fst
    · exact ih _ _ hp
    · have hw : p = w.1 := by
        simp only [List.map_cons, List.mem_cons] at h
        tauto
      rw [applyWrites_not_mem _ _ _ hp, applyWrites_not_mem _ _ _ hp]
      subst hw
      simp [Function.update_same]

lemma applyWrites_singleton (out : ℕ → ℚ) (w : ℕ × ℚ) :
    applyWrites out [w] = Function.update out w.1 w.2 := rfl

lemma applyWrites_range_lookup (out : ℕ → ℚ) (len stride : ℕ) (hs : 1 ≤ stride)
    (v : ℕ → ℚ) (i : ℕ) (hi : i < len) :
    applyWrites out ((List.range len).map fun t => (t * stride, v t)) (i * stride)
      = v i := by
  induction' len with n ih
  · omega
  · rw [List.range_succ, List.map_append, applyWrites_append]
    simp only [List.map_cons, List.map_nil, applyWrites_singleton]
    by_cases hin : i = n
    · subst hin
      exact Function.update_same _ _ _
    · have hlt : i < n := by omega
      have hne : i * stride ≠ n * stride := by
        intro hcontra
        exact absurd (Nat.eq_of_mul_eq_mul_right (by omega) hcontra) hin
      rw [Function.update_noteq hne]
      exact ih hlt

/-! ## Consequences of the window-mean characterization -/

lemma box1DWrites_positions (invec : ℕ → ℚ) (len stride f : ℕ)
    (hf : 1 ≤ f) (hfl : f ≤ len) :
    (box1DWrites invec len stride f).map Prod.fst
      = (List.range len).map (· * stride) := by
  rw [box1DWrites_master invec len stride f hf hfl, List.map_map]
  rfl

lemma box1DFloatC_mean (invec outVec : ℕ → ℚ) (len stride f i : ℕ)
    (hs : 1 ≤ stride) (hf : 1 ≤ f) (hfl : f ≤ len) (hi : i < len) :
    box1DFloatC invec outVec len stride f (i * stride)
      = boxWindowMean invec len stride f i := by
  unfold box1DFloatC
  rw [box1DWrites_master invec len stride f hf hfl]
  exact applyWrites_range_lookup outVec len stride hs _ i hi

lemma boxWindowMean_one (invec : ℕ → ℚ) (len stride i : ℕ) (hi : i < len) :
    boxWindowMean invec len stride 1 i = invec (i * stride) := by
  unfold boxWindowMean winLo winHi
  have h1 : i + 1 / 2 + 1 - 1 = i := by omega
  have h2 : min (i + 1 / 2 + 1) len = i + 1 := by omega
  rw [h1, h2]
  rw [Finset.sum_Ico_eq_sum_range]
  simp

lemma boxWindowMean_const (c : ℚ) (len stride f i : ℕ)
    (hf : 1 ≤ f) (hfl : f ≤ len) (hi : i < len) :
    boxWindowMean (fun _ => c) len stride f i = c := by
  unfold boxWindowMean
  have hlt : winLo f i < winHi len f i := by
    unfold winLo winHi
    omega
  have hne : ((winHi len f i - winLo f i : ℕ) : ℚ) ≠ 0 := by
    have hpos : (0 : ℚ) < ((winHi len f i - winLo f i : ℕ) : ℚ) := by
      exact_mod_cast Nat.sub_pos_of_lt hlt
    exact ne_of_gt hpos
  rw [Finset.sum_const, Nat.card_Ico, nsmul_eq_mul, mul_comm, mul_div_assoc,
    div_self hne, mul_one]

lemma box1DWrites_congr (invec invec' : ℕ → ℚ) (len stride f : ℕ)
    (hf : 1 ≤ f) (hfl : f ≤ len)
    (h : ∀ j < len, invec (j * stride) = invec' (j * stride)) :
    box1DWrites invec len stride f = box1DWrites invec' len stride f := by
  rw [box1DWrites_master invec len stride f hf hfl,
    box1DWrites_master invec' len stride f hf hfl]
  refine List.map_congr_left ?_
  intro i hi
  simp only [List.mem_range] at hi
  refine congrArg₂ Prod.mk rfl ?_
  unfold boxWindowMean
  congr 1
  refine Finset.sum_congr rfl ?_
  intro j hj
  simp only [Finset.mem_Ico] at hj
  refine h j ?_
  have hle : winHi len f i ≤ len := by unfold winHi; omega
  omega

set_option maxHeartbeats 1000000 in
lemma box1DDivisors_pos (invec : ℕ → ℚ) (len stride f : ℕ)
    (hf : 1 ≤ f) (hfl : f ≤ len) :
    ∀ d ∈ box1DDivisors invec len stride f, 0 < d := by
  simp only [box1DDivisors, box1DRun]
  have hhalf : (f + 2) / 2 - 1 = f / 2 := by omega
  have hp2 : ((f : ℤ) - (((f + 2) / 2 : ℕ) : ℤ) + 1).toNat = f - f / 2 := by omega
  rw [hhalf, hp2, phase1Run_eq]
  simp only [zero_add]
  rw [phase2Run_eq]
  dsimp only
  simp only [zero_add]
  have hcws : ((f / 2 : ℕ) : ℚ) + ((f - f / 2 : ℕ) : ℚ) = (f : ℚ) := by
    rw [← Nat.cast_add]
    congr 1
    omega
  simp only [hcws]
  rw [phase3BlockRun_eq_scalar invec stride _ _ (1 / (f : ℚ)) rfl]
  dsimp only
  rw [phase3ScalarRun_eq]
  dsimp only
  rw [phase3ScalarRun_eq]
  dsimp only
  rw [phase4Run_eq]
  dsimp only
  simp only [List.map_map]
  intro d hd
  simp only [List.mem_append, List.mem_map, List.mem_range, List.mem_singleton,
    Function.comp_apply] at hd
  have hfQ : (0 : ℚ) < (f : ℚ) := by exact_mod_cast hf
  rcases hd with ((⟨t, ht, hdq⟩ | hdq) | ⟨t, ht, hdq⟩) | ⟨t, ht, hdq⟩
  · rw [← hdq]
    positivity
  · rw [hdq]
    exact hfQ
  · rw [← hdq]
    exact hfQ
  · rw [← hdq]
    have h1 : t + 1 < f := by omega
    have h2 : ((t : ℚ) + 1) < (f : ℚ) := by exact_mod_cast h1
    linarith

lemma box1DPhase3Steps_toNat (len f : ℕ) :
    box1DPhase3Steps len f = ((len : ℤ) - (f : ℤ)).toNat := by
  simp only [box1DPhase3Steps]
  omega

/-! ## The 2D passes as store lists -/

/-- All stores of one `boxAlongRowsFloatC` call, row by row. -/
def rowWritesList (input : ℕ → ℚ) (numRows numCols windowSize : ℕ) :
    List (ℕ × ℚ) :=
  ((List.range numRows).map fun i =>
    (box1DWrites (fun k => input (i * numCols + k)) numCols 1 windowSize).map
      fun w => (i * numCols + w.1, w.2)).flatten

/-- All stores of one `boxAlongColsFloatC` call, column by column. -/
def colWritesList (input : ℕ → ℚ) (numRows numCols windowSize : ℕ) :
    List (ℕ × ℚ) :=
  ((List.range numCols).map fun j =>
    (box1DWrites (fun k => input (j + k)) numRows numCols windowSize).map
      fun w => (j + w.1, w.2)).flatten

lemma foldl_offset_eq (input output : ℕ → ℚ) (len stride w : ℕ) (base : ℕ → ℕ)
    (n : ℕ) :
    (List.range n).foldl (fun out i => box1DOffset input out (base i) len stride w)
        output
      = applyWrites output
          (((List.range n).map fun i =>
            (box1DWrites (fun k => input (base i + k)) len stride w).map
              fun p => (base i + p.1, p.2)).flatten) := by
  induction' n with n ih
  · rfl
  · simp only [List.range_succ, List.foldl_append, List.foldl_cons, List.foldl_nil,
      List.map_append, List.map_cons, List.map_nil, List.flatten_append]
    rw [applyWrites_append, ih]
    simp only [List.flatten_cons, List.flatten_nil, List.append_nil]
    rfl

lemma boxAlongRows_eq_applyWrites (input output : ℕ → ℚ) (rows cols w : ℕ) :
    boxAlongRowsFloatC input output rows cols w
      = applyWrites output (rowWritesList input rows cols w) := by
  exact foldl_offset_eq input output cols 1 w (fun i => i * cols) rows

lemma boxAlongCols_eq_applyWrites (input output : ℕ → ℚ) (rows cols w : ℕ) :
    boxAlongColsFloatC input output rows cols w
      = applyWrites output (colWritesList input rows cols w) := by
  exact foldl_offset_eq input output rows cols w (fun j => j) cols

lemma shifted_positions (A : ℕ → ℚ) (base len stride f : ℕ)
    (hf : 1 ≤ f) (hfl : f ≤ len) :
    ((box1DWrites A len stride f).map fun w => (base + w.1, w.2)).map Prod.fst
      = (List.range len).map fun t => base + t * stride := by
  rw [List.map_map]
  have h2 : (Prod.fst ∘ fun w : ℕ × ℚ => (base + w.1, w.2))
      = (fun t => base + t) ∘ Prod.fst := rfl
  rw [h2, ← List.map_map, box1DWrites_positions A len stride f hf hfl, List.map_map]
  rfl

lemma rowWritesList_covers (input : ℕ → ℚ) (rows cols w : ℕ)
    (hw1 : 1 ≤ w) (hw2 : w ≤ cols) (p : ℕ) (hp : p < rows * cols) :
    p ∈ (rowWritesList input rows cols w).map Prod.fst := by
  have hcols : 0 < cols := by omega
  have hi : p / cols < rows :=
    Nat.div_lt_of_lt_mul (by rwa [Nat.mul_comm rows cols] at hp)
  unfold rowWritesList
  rw [List.map_flatten, List.map_map, List.mem_flatten]
  refine ⟨((box1DWrites (fun k => input (p / cols * cols + k)) cols 1 w).map
      fun w' => (p / cols * cols + w'.1, w'.2)).map Prod.fst, ?_, ?_⟩
  · simp only [List.mem_map, List.mem_range, Function.comp_apply]
    exact ⟨p / cols, hi, rfl⟩
  · rw [shifted_positions _ _ cols 1 w hw1 hw2]
    simp only [List.mem_map, List.mem_range]
    refine ⟨p % cols, Nat.mod_lt _ hcols, ?_⟩
    rw [mul_one, Nat.mul_comm (p / cols) cols]
    exact Nat.div_add_mod p cols

lemma colWritesList_congr (x y : ℕ → ℚ) (rows cols w : ℕ)
    (hw1 : 1 ≤ w) (hw2 : w ≤ rows)
    (h : ∀ p < rows * cols, x p = y p) :
    colWritesList x rows cols w = colWritesList y rows cols w := by
  unfold colWritesList
  congr 1
  refine List.map_congr_left ?_
  intro j hj
  simp only [List.mem_range] at hj
  congr 1
  refine box1DWrites_congr _ _ rows cols w hw1 hw2 ?_
  intro k hk
  refine h (j + k * cols) ?_
  have hkc : (k + 1) * cols ≤ rows * cols := Nat.mul_le_mul_right cols (by omega)
  have hlt : j + k * cols < (k + 1) * cols := by
    rw [add_mul]
    omega
  omega

/-! ## Jarosz filter lemmas -/

lemma jaroszFilterFloat_succ (b1 b2 : ℕ → ℚ) (rows cols wr wc n : ℕ) :
    jaroszFilterFloat b1 b2 rows cols wr wc (n + 1)
      = jaroszStep rows cols wr wc (jaroszFilterFloat b1 b2 rows cols wr wc n) := by
  unfold jaroszFilterFloat
  rw [List.range_succ, List.foldl_append]
  rfl

lemma boxAlongRows_grid_agree (input b b' : ℕ → ℚ) (rows cols w : ℕ)
    (hw1 : 1 ≤ w) (hw2 : w ≤ cols) (p : ℕ) (hp : p < rows * cols) :
    boxAlongRowsFloatC input b rows cols w p = boxAlongRowsFloatC input b' rows cols w p := by
  rw [boxAlongRows_eq_applyWrites, boxAlongRows_eq_applyWrites]
  exact applyWrites_covered b b' _ p (rowWritesList_covers input rows cols w hw1 hw2 p hp)

lemma jaroszStep_fst_congr (rows cols wr wc : ℕ)
    (hr1 : 1 ≤ wr) (hr2 : wr ≤ cols) (hc1 : 1 ≤ wc) (hc2 : wc ≤ rows)
    (p q : (ℕ → ℚ) × (ℕ → ℚ)) (h : p.1 = q.1) :
    (jaroszStep rows cols wr wc p).1 = (jaroszStep rows cols wr wc q).1 := by
  unfold jaroszStep
  dsimp only
  rw [h]
  rw [boxAlongCols_eq_applyWrites, boxAlongCols_eq_applyWrites]
  rw [colWritesList_congr (boxAlongRowsFloatC q.1 p.2 rows cols wr)
    (boxAlongRowsFloatC q.1 q.2 rows cols wr) rows cols wc hc1 hc2 ?_]
  intro x hx
  exact boxAlongRows_grid_agree q.1 p.2 q.2 rows cols wr hr1 hr2 x hx

lemma jarosz_fst_indep (b1 b2 b2' : ℕ → ℚ) (rows cols wr wc : ℕ)
    (hr1 : 1 ≤ wr) (hr2 : wr ≤ cols) (hc1 : 1 ≤ wc) (hc2 : wc ≤ rows) :
    ∀ n : ℕ, (jaroszFilterFloat b1 b2 rows cols wr wc n).1
      = (jaroszFilterFloat b1 b2' rows cols wr wc n).1 := by
  intro n
  induction' n with n ih
  · rfl
  · rw [jaroszFilterFloat_succ, jaroszFilterFloat_succ]
    exact jaroszStep_fst_congr rows cols wr wc hr1 hr2 hc1 hc2 _ _ ih

/-! ## Claims -/

/-- C1 (counterexample to the claim as stated): at the 2-element input
`[1, 0]` with `stride = 1` and even `windowSize = 2`, the value the filter
writes at position 1 is `0`, not the claimed mean `1/2` of the window
`[1 - 2/2, 1 + 2/2] ∩ [0, 2) = {0, 1}`: for even window sizes the window the
code averages is `[i + w/2 - (w-1), i + w/2]`, not `[i - w/2, i + w/2]`. -/
theorem box1DFloatC_claim_window_cex :
    box1DFloatC input10 zeroBuf 2 1 2 (1 * 1) ≠ claimWindowMean input10 2 1 2 1 := by
  have h := box1DFloatC_mean input10 zeroBuf 2 1 2 1 (by norm_num) (by norm_num)
    (by norm_num) (by norm_num)
  rw [h]
  unfold boxWindowMean claimWindowMean winLo winHi input10
  norm_num [Finset.sum_Ico_eq_sum_range, Finset.sum_range_succ]

/-- C1 (amended): for every input, `length ≥ 1`, `stride ≥ 1` and
`windowSize ∈ [1, length]`, `box1DFloatC` writes at output position `i` the
arithmetic mean of the input samples in the window
`[i + windowSize/2 - (windowSize - 1), i + windowSize/2]` intersected with
`[0, length)` (for odd `windowSize` this window equals the claimed
`[i - windowSize/2, i + windowSize/2]`), and the divisor is the exact count
of in-range samples contributing to the sum. -/
theorem box1DFloatC_window_mean (invec outVec : ℕ → ℚ) (len stride f i : ℕ)
    (hs : 1 ≤ stride) (hf : 1 ≤ f) (hfl : f ≤ len) (hi : i < len) :
    box1DFloatC invec outVec len stride f (i * stride)
      = boxWindowMean invec len stride f i :=
  box1DFloatC_mean invec outVec len stride f i hs hf hfl hi

/-- C1 witness: the amended statement at the concrete input `[0,0,0,10,0]`,
`length = 5`, `stride = 1`, `windowSize = 3`, position `2`. -/
theorem box1DFloatC_window_mean_witness :
    (1 ≤ 1 ∧ 1 ≤ 3 ∧ 3 ≤ 5 ∧ 2 < 5) ∧
    box1DFloatC input5 zeroBuf 5 1 3 (2 * 1) = boxWindowMean input5 5 1 3 2 :=
  ⟨by norm_num,
   box1DFloatC_window_mean input5 zeroBuf 5 1 3 2 (by norm_num) (by norm_num)
     (by norm_num) (by norm_num)⟩

/-- C2: for every input, length, stride and window size, the block-of-8
unrolled steady-state path of `box1DFloatC` (serial recurrence over eight
partial sums, each scaled by the precomputed reciprocal of the window size)
performs exactly the same stores as the single-step fallback path, and hence
produces an identical output buffer. -/
theorem box1D_unrolled_eq_fallback (invec outVec : ℕ → ℚ) (len stride f : ℕ) :
    box1DWrites invec len stride f = box1DWritesNoUnroll invec len stride f ∧
    box1DFloatC invec outVec len stride f
      = box1DFloatCNoUnroll invec outVec len stride f :=
  ⟨box1DWrites_eq_noUnroll invec len stride f, by
    unfold box1DFloatC box1DFloatCNoUnroll box1DWrites box1DWritesNoUnroll
    rw [show (box1DRun invec len stride f).1 = (box1DRunNoUnroll invec len stride f).1
      from box1DWrites_eq_noUnroll invec len stride f]⟩

/-- C3: for every `fullWindowSize ∈ [1, length]`, every division performed by
`box1DFloatC` (the phase-2 divisions, the `denom = 1/currentWindowSize`
reciprocal before the unrolled loop, the scalar phase-3 divisions and the
phase-4 divisions) has a strictly positive divisor; and whenever the
phase-3 length formula `vectorLength - fullWindowSize` is zero or negative,
the phase-3 loops execute zero steps. -/
theorem box1D_division_safety (invec : ℕ → ℚ) (len stride f : ℕ)
    (hf : 1 ≤ f) (hfl : f ≤ len) :
    (∀ d ∈ box1DDivisors invec len stride f, 0 < d) ∧
    (∀ len' f' : ℕ, (len' : ℤ) - (f' : ℤ) ≤ 0 → box1DPhase3Steps len' f' = 0) :=
  ⟨box1DDivisors_pos invec len stride f hf hfl, fun len' f' h => by
    rw [box1DPhase3Steps_toNat]
    omega⟩

/-- C3 witness: the statement at `length = 1`, `stride = 1`,
`fullWindowSize = 1`, all-zero input. -/
theorem box1D_division_safety_witness :
    (1 ≤ 1 ∧ 1 ≤ 1) ∧
    ((∀ d ∈ box1DDivisors zeroBuf 1 1 1, 0 < d) ∧
     (∀ len' f' : ℕ, (len' : ℤ) - (f' : ℤ) ≤ 0 → box1DPhase3Steps len' f' = 0)) :=
  ⟨by norm_num, box1D_division_safety zeroBuf 1 1 1 (by norm_num) (by norm_num)⟩

/-- C4: on the 5-element input `[0, 0, 0, 10, 0]` with `stride = 1` and
`windowSize = 3`, `box1DFloatC` produces exactly the output
`[0, 0, 10/3, 10/3, 5]`. -/
theorem box1D_row_example :
    box1DFloatC input5 zeroBuf 5 1 3 0 = 0 ∧
    box1DFloatC input5 zeroBuf 5 1 3 1 = 0 ∧
    box1DFloatC input5 zeroBuf 5 1 3 2 = 10 / 3 ∧
    box1DFloatC input5 zeroBuf 5 1 3 3 = 10 / 3 ∧
    box1DFloatC input5 zeroBuf 5 1 3 4 = 5 := by
  have h0 := box1DFloatC_mean input5 zeroBuf 5 1 3 0 (by norm_num) (by norm_num)
    (by norm_num) (by norm_num)
  have h1 := box1DFloatC_mean input5 zeroBuf 5 1 3 1 (by norm_num) (by norm_num)
    (by norm_num) (by norm_num)
  have h2 := box1DFloatC_mean input5 zeroBuf 5 1 3 2 (by norm_num) (by norm_num)
    (by norm_num) (by norm_num)
  have h3 := box1DFloatC_mean input5 zeroBuf 5 1 3 3 (by norm_num) (by norm_num)
    (by norm_num) (by norm_num)
  have h4 := box1DFloatC_mean input5 zeroBuf 5 1 3 4 (by norm_num) (by norm_num)
    (by norm_num) (by norm_num)
  norm_num at h0 h1 h2 h3 h4
  rw [h0, h1, h2, h3, h4]
  unfold boxWindowMean winLo winHi input5
  norm_num [Finset.sum_Ico_eq_sum_range, Finset.sum_range_succ]

/-- C5: for every `nreps ≥ 0`, `jaroszFilterFloat` is exactly `nreps`
iterations of `jaroszStep` — one row pass from buffer 1 into buffer 2 with
`windowSizeAlongRows` followed by one column pass from buffer 2 into buffer 1
with `windowSizeAlongCols` — starting from `(buffer1, buffer2)`; the smoothed
result is the first component (buffer 1). -/
theorem jaroszFilterFloat_iterates (b1 b2 : ℕ → ℚ) (rows cols wr wc n : ℕ) :
    jaroszFilterFloat b1 b2 rows cols wr wc n
      = (jaroszStep rows cols wr wc)^[n] (b1, b2) := by
  induction' n with n ih
  · rfl
  · rw [jaroszFilterFloat_succ, ih, Function.iterate_succ_apply']

/-- C6: for every input, length and `stride ≥ 1`, running `box1DFloatC` with
`windowSize = 1` writes at every output position exactly the input sample at
that position. -/
theorem box1D_window_one_id (invec outVec : ℕ → ℚ) (len stride i : ℕ)
    (hs : 1 ≤ stride) (hi : i < len) :
    box1DFloatC invec outVec len stride 1 (i * stride) = invec (i * stride) := by
  rw [box1DFloatC_mean invec outVec len stride 1 i hs (le_refl 1) (by omega) hi]
  exact boxWindowMean_one invec len stride i hi

/-- C6 witness: `windowSize = 1` at the concrete input `[0,0,0,10,0]`,
`length = 4`, `stride = 2`, position `3`. -/
theorem box1D_window_one_id_witness :
    (1 ≤ 2 ∧ 3 < 4) ∧
    box1DFloatC input5 zeroBuf 4 2 1 (3 * 2) = input5 (3 * 2) :=
  ⟨by norm_num, box1D_window_one_id input5 zeroBuf 4 2 3 (by norm_num) (by norm_num)⟩

/-- C7: for every constant input, every length, `stride ≥ 1` and
`windowSize ∈ [1, length]`, every output value of `box1DFloatC` equals the
constant. -/
theorem box1D_const_preserved (c : ℚ) (outVec : ℕ → ℚ) (len stride f i : ℕ)
    (hs : 1 ≤ stride) (hf : 1 ≤ f) (hfl : f ≤ len) (hi : i < len) :
    box1DFloatC (fun _ => c) outVec len stride f (i * stride) = c := by
  rw [box1DFloatC_mean (fun _ => c) outVec len stride f i hs hf hfl hi]
  exact boxWindowMean_const c len stride f i hf hfl hi

/-- C7 witness: constant `7` at `length = 4`, `stride = 1`,
`windowSize = 4`, position `1`. -/
theorem box1D_const_preserved_witness :
    (1 ≤ 1 ∧ 1 ≤ 4 ∧ 4 ≤ 4 ∧ 1 < 4) ∧
    box1DFloatC (fun _ => (7 : ℚ)) zeroBuf 4 1 4 (1 * 1) = 7 :=
  ⟨by norm_num, box1D_const_preserved 7 zeroBuf 4 1 4 1 (by norm_num) (by norm_num)
    (by norm_num) (by norm_num)⟩

/-- C8: calling `jaroszFilterFloat` with `nreps = 0` leaves both buffers
untouched; in particular buffer A (buffer 1) keeps every element. -/
theorem jaroszFilterFloat_zero_reps (b1 b2 : ℕ → ℚ) (rows cols wr wc : ℕ) :
    (jaroszFilterFloat b1 b2 rows cols wr wc 0).1 = b1 ∧
    (jaroszFilterFloat b1 b2 rows cols wr wc 0).2 = b2 :=
  ⟨rfl, rfl⟩

/-- C9: for `stride ≥ 1` and `fullWindowSize ∈ [1, length]`, `box1DFloatC`
stores exactly at positions `0·stride, 1·stride, …, (length-1)·stride`, in
that order, each exactly once (the store list has no duplicate position and
its length is `length`), and at no other position. -/
theorem box1D_writes_each_position_once (invec : ℕ → ℚ) (len stride f : ℕ)
    (hs : 1 ≤ stride) (hf : 1 ≤ f) (hfl : f ≤ len) :
    (box1DWrites invec len stride f).map Prod.fst
        = (List.range len).map (· * stride) ∧
    ((box1DWrites invec len stride f).map Prod.fst).Nodup ∧
    (box1DWrites invec len stride f).length = len := by
  have hpos := box1DWrites_positions invec len stride f hf hfl
  refine ⟨hpos, ?_, ?_⟩
  · rw [hpos]
    refine List.Nodup.map ?_ (List.nodup_range len)
    intro a b hab
    exact Nat.eq_of_mul_eq_mul_right (by omega) hab
  · have h := congrArg List.length hpos
    simpa using h

/-- C9 witness: positions at the concrete input `[0,0,0,10,0]`,
`length = 5`, `stride = 2`, `windowSize = 3`. -/
theorem box1D_writes_each_position_once_witness :
    (1 ≤ 2 ∧ 1 ≤ 3 ∧ 3 ≤ 5) ∧
    ((box1DWrites input5 5 2 3).map Prod.fst = (List.range 5).map (· * 2) ∧
     ((box1DWrites input5 5 2 3).map Prod.fst).Nodup ∧
     (box1DWrites input5 5 2 3).length = 5) :=
  ⟨by norm_num, box1D_writes_each_position_once input5 5 2 3 (by norm_num)
    (by norm_num) (by norm_num)⟩

/-- C10: for window sizes in range and `nreps ≥ 1`, the final contents of
buffer 1 after `jaroszFilterFloat` do not depend on the initial contents of
buffer 2: two runs that differ only in buffer 2 produce identical buffer 1
(the row pass fully overwrites buffer 2 before the column pass reads it). -/
theorem jarosz_result_ignores_scratch (b1 b2 b2' : ℕ → ℚ)
    (rows cols wr wc nreps : ℕ)
    (hr1 : 1 ≤ wr) (hr2 : wr ≤ cols) (hc1 : 1 ≤ wc) (hc2 : wc ≤ rows)
    (hn : 1 ≤ nreps) :
    (jaroszFilterFloat b1 b2 rows cols wr wc nreps).1
      = (jaroszFilterFloat b1 b2' rows cols wr wc nreps).1 :=
  jarosz_fst_indep b1 b2 b2' rows cols wr wc hr1 hr2 hc1 hc2 nreps

/-- C10 witness: a 1×1 image, both window sizes 1, one repetition, scratch
buffers all-zero versus all-one. -/
theorem jarosz_result_ignores_scratch_witness :
    (1 ≤ 1 ∧ 1 ≤ 1 ∧ 1 ≤ 1 ∧ 1 ≤ 1 ∧ 1 ≤ 1) ∧
    (jaroszFilterFloat input5 zeroBuf 1 1 1 1 1).1
      = (jaroszFilterFloat input5 oneBuf 1 1 1 1 1).1 :=
  ⟨by norm_num, jarosz_result_ignores_scratch input5 zeroBuf oneBuf 1 1 1 1 1
    (by norm_num) (by norm_num) (by norm_num) (by norm_num) (by norm_num)⟩
